import Mathlib

/-!
Verification of the NATS client core: the header wire-format codec
(`src/headers.rs`) and the pull-subscription consumer-handle lifecycle
(`src/jetstream/pull_subscription.rs`).

Strings are modelled as `List Char` (the character sequence of a Rust
`String`/`&str`); byte buffers as `List Nat` (each element one byte).
Fallible Rust code returning `std::io::Result` is modelled with `Except`;
the one operation in the parser that can panic (the byte slice `&v[1..]`
on a continuation line) is modelled in `Option`, `none` standing for a
panic.
-/

set_option autoImplicit false

deriving instance DecidableEq for Except

namespace NatsHeaders

/-- Character sequence of a Rust `String` / `&str`. -/
abbrev Str := List Char

/-- Whitespace predicate used by `str::trim`.  Rust trims the Unicode
`White_Space` class; on the ASCII range (all inputs relevant here) that
class is exactly space, tab, carriage return and line feed. -/
def isWsChar (c : Char) : Bool :=
  c = ' ' || c = '\t' || c = '\r' || c = '\n'

/-- `str::trim`: remove leading and trailing whitespace characters. -/
def trimStr (s : Str) : Str :=
  ((s.dropWhile isWsChar).reverse.dropWhile isWsChar).reverse

/-- Prepend a character onto the first piece of a piece list. -/
def consFirst (c : Char) : List Str → List Str
  | [] => [[c]]
  | l :: ls => (c :: l) :: ls

/-- `str::lines`: split at `'\n'`, removing one `'\r'` immediately before
each `'\n'`; no trailing empty line is produced for a trailing newline,
and a final segment without a newline keeps any trailing `'\r'`. -/
def linesOf : Str → List Str
  | [] => []
  | '\r' :: '\n' :: cs => [] :: linesOf cs
  | '\n' :: cs => [] :: linesOf cs
  | c :: cs => consFirst c (linesOf cs)

/-- `line.splitn(2, ':')`: split at the first colon only; one element if
no colon occurs, two elements otherwise. -/
def splitFirstColon : Str → List Str
  | [] => [[]]
  | ':' :: rest => [[], rest]
  | c :: rest => consFirst c (splitFirstColon rest)

/-- `s.split(',')`: split at every comma, keeping empty pieces. -/
def splitComma : Str → List Str
  | [] => [[]]
  | ',' :: rest => [] :: splitComma rest
  | c :: rest => consFirst c (splitComma rest)

/-- `s.starts_with(p)` for a literal pattern. -/
def strStartsWith : Str → Str → Bool
  | _, [] => true
  | [], _ :: _ => false
  | c :: cs, p :: ps => c = p && strStartsWith cs ps

/-- `fn is_continuation(c: char) -> bool { c == ' ' || c == '\t' }`
(`src/headers.rs`). -/
def is_continuation (c : Char) : Bool :=
  c = ' ' || c = '\t'

/-- `line.starts_with(&is_continuation)`: true iff the first character
satisfies the predicate (false on the empty string). -/
def startsCont : Str → Bool
  | [] => false
  | c :: _ => is_continuation c

/-- Number of bytes of the UTF-8 encoding of a character. -/
def charUtf8Len (c : Char) : Nat :=
  if c.toNat < 0x80 then 1
  else if c.toNat < 0x800 then 2
  else if c.toNat < 0x10000 then 3
  else 4

/-- The byte slice `&v[1..]` of a string: defined when byte offset 1 is a
character boundary (first character one byte wide); `none` models the
panic raised otherwise. -/
def sliceFrom1 (l : Str) : Option Str :=
  match l with
  | [] => none
  | c :: rest => if charUtf8Len c = 1 then some rest else none

/-- Concatenation-map over a list (`Iterator::flat_map` collected). -/
def catMap {α β : Type} (f : α → List β) : List α → List β
  | [] => []
  | a :: as => f a ++ catMap f as

/-! ## UTF-8 encoding and decoding

`Headers::try_from` receives a byte buffer and begins with
`std::str::from_utf8`; `Headers::to_bytes` emits the UTF-8 bytes of the
assembled text.  Byte values and code points are `Nat`; the multi-byte
arithmetic is written with `/`, `%`, `*`, `+` (equivalent to the shift
and mask operations of the standard decoder). -/

/-- UTF-8 encoding of one Unicode scalar value. -/
def encodeChar (n : Nat) : List Nat :=
  if n < 0x80 then [n]
  else if n < 0x800 then [0xC0 + n / 64, 0x80 + n % 64]
  else if n < 0x10000 then
    [0xE0 + n / 4096, 0x80 + n / 64 % 64, 0x80 + n % 64]
  else
    [0xF0 + n / 262144, 0x80 + n / 4096 % 64, 0x80 + n / 64 % 64,
      0x80 + n % 64]

/-- UTF-8 encoding of a string. -/
def encodeUtf8 (s : Str) : List Nat :=
  catMap (fun c => encodeChar c.toNat) s

/-- Validity range for the second byte of a three-byte sequence
(excludes overlong forms after `0xE0` and surrogates after `0xED`),
exactly the table used by `std::str::from_utf8`. -/
def validSecond3 (b b1 : Nat) : Bool :=
  if b = 0xE0 then 0xA0 ≤ b1 && b1 ≤ 0xBF
  else if b = 0xED then 0x80 ≤ b1 && b1 ≤ 0x9F
  else 0x80 ≤ b1 && b1 ≤ 0xBF

/-- Validity range for the second byte of a four-byte sequence
(excludes overlong forms after `0xF0` and values above `U+10FFFF`
after `0xF4`). -/
def validSecond4 (b b1 : Nat) : Bool :=
  if b = 0xF0 then 0x90 ≤ b1 && b1 ≤ 0xBF
  else if b = 0xF4 then 0x80 ≤ b1 && b1 ≤ 0x8F
  else 0x80 ≤ b1 && b1 ≤ 0xBF

/-- A continuation byte `0x80..=0xBF`. -/
def isContByte (b : Nat) : Bool :=
  0x80 ≤ b && b ≤ 0xBF

/-- Decode one UTF-8 sequence starting with byte `b`, the following bytes
being `rest`; returns the code point and the unconsumed bytes, or `none`
on invalid input. -/
def decodeOne (b : Nat) (rest : List Nat) : Option (Nat × List Nat) :=
  if b < 0x80 then some (b, rest)
  else if 0xC2 ≤ b && b ≤ 0xDF then
    match rest with
    | b1 :: rest' =>
      if isContByte b1 then some ((b - 0xC0) * 64 + (b1 - 0x80), rest')
      else none
    | [] => none
  else if 0xE0 ≤ b && b ≤ 0xEF then
    match rest with
    | b1 :: b2 :: rest' =>
      if validSecond3 b b1 && isContByte b2 then
        some ((b - 0xE0) * 4096 + (b1 - 0x80) * 64 + (b2 - 0x80), rest')
      else none
    | _ => none
  else if 0xF0 ≤ b && b ≤ 0xF4 then
    match rest with
    | b1 :: b2 :: b3 :: rest' =>
      if validSecond4 b b1 && isContByte b2 && isContByte b3 then
        some ((b - 0xF0) * 262144 + (b1 - 0x80) * 4096
          + (b2 - 0x80) * 64 + (b3 - 0x80), rest')
      else none
    | _ => none
  else none

/-- Decoding loop; the fuel argument bounds the recursion and one byte is
consumed per step, so `fuel = length` (as supplied by `decodeUtf8`) never
runs out. -/
def decodeUtf8Go : Nat → List Nat → Option Str
  | _, [] => some []
  | 0, _ :: _ => none
  | fuel + 1, b :: rest =>
    match decodeOne b rest with
    | none => none
    | some (cp, rest') =>
      (decodeUtf8Go fuel rest').map (fun s => Char.ofNat cp :: s)

/-- `std::str::from_utf8` composed with reading the characters: the
decoded character sequence, or `none` for invalid UTF-8. -/
def decodeUtf8 (bs : List Nat) : Option Str :=
  decodeUtf8Go bs.length bs

/-! ## The headers multimap

`Headers.inner : HashMap<String, HashSet<String>>` is modelled as an
association list with pairwise-distinct keys; each value set is a
duplicate-free list.  `HashMap`/`HashSet` iteration order is unspecified
in Rust; the model iterates in insertion order, and every claim about the
map is stated up to (or is insensitive to) that order. -/

/-- A `HashSet<String>`: duplicate-free list of values. -/
abbrev ValueSet := List Str

/-- `HashSet::insert`: no-op on a value already present. -/
def setInsert (s : ValueSet) (v : Str) : ValueSet :=
  if v ∈ s then s else s ++ [v]

/-- Insert each piece in order (`for v in s.split(',') { entry.insert(v) }`). -/
def insertPieces (s : ValueSet) (ps : List Str) : ValueSet :=
  ps.foldl setInsert s

/-- The `HashMap<String, HashSet<String>>` behind `Headers`. -/
abbrev HeadersMap := List (Str × ValueSet)

/-- The keys of the map. -/
def keysOf (m : HeadersMap) : List Str := m.map Prod.fst

/-- Value set stored under a name, if any. -/
def lookupSet : HeadersMap → Str → Option ValueSet
  | [], _ => none
  | (k, s) :: rest, q => if k = q then some s else lookupSet rest q

/-- `inner.entry(k).or_insert_with(HashSet::default)` followed by
inserting every piece into that entry's set. -/
def entryInsertAll (m : HeadersMap) (k : Str) (ps : List Str) : HeadersMap :=
  match m with
  | [] => [(k, insertPieces [] ps)]
  | (k', s) :: rest =>
    if k' = k then (k', insertPieces s ps) :: rest
    else (k', s) :: entryInsertAll rest k ps

/-! ## Errors

`parse_error` (`src/headers.rs`) builds every parse failure as
`std::io::Error::new(std::io::ErrorKind::InvalidInput, message)`.
`EKind` models the subset of `std::io::ErrorKind` relevant here, with
enough other variants that "the kind is `InvalidInput`" is informative. -/

inductive EKind where
  | notFound
  | invalidInput
  | invalidData
  | unexpectedEof
  | other
deriving DecidableEq, Repr

/-- A `std::io::Error`: a kind plus a message. -/
structure IoError where
  kind : EKind
  message : Str
deriving DecidableEq, Repr

/-- `fn parse_error(e) -> io::Result<T>`: an `InvalidInput` error with the
given message. -/
def parseErr (msg : Str) : IoError :=
  { kind := EKind.invalidInput, message := msg }

def msgInvalidUtf8 : Str := "invalid utf8 received".data
def msgMissingBlock : Str := "expected header information not present".data
def msgBadVersion : Str := "version line does not begin with NATS/".data
def msgMalformed : Str := "malformed header input".data

/-! ## The parser (`impl TryFrom<&[u8]> for Headers`) -/

/-- The continuation-folding loop

```
while let Some(v) = lines.next_if(|s| s.starts_with(&is_continuation)) {
    s.push_str(&v[1..]);
}
```

Takes the not-yet-consumed lines and the accumulated value; returns the
folded value and the unconsumed lines.  `none` models the panic of the
slice `&v[1..]` (which claim C9 shows unreachable: a consumed line's
first character is a one-byte space or tab). -/
def foldCont : List Str → Str → Option (Str × List Str)
  | [], s => some (s, [])
  | l :: rest, s =>
    if startsCont l then
      match sliceFrom1 l with
      | some t => foldCont rest (s ++ t)
      | none => none
    else some (s, l :: rest)

theorem foldCont_length {ls : List Str} {s t : Str} {ls' : List Str}
    (h : foldCont ls s = some (t, ls')) : ls'.length ≤ ls.length := by
  induction ls generalizing s with
  | nil =>
    simp only [foldCont, Option.some.injEq, Prod.mk.injEq] at h
    simp [h.2]
  | cons l rest ih =>
    simp only [foldCont] at h
    by_cases hc : startsCont l
    · rw [if_pos hc] at h
      cases hs : sliceFrom1 l with
      | none => rw [hs] at h; exact absurd h (by simp)
      | some tl =>
        rw [hs] at h
        exact Nat.le_succ_of_le (ih h)
    · rw [if_neg hc] at h
      simp only [Option.some.injEq, Prod.mk.injEq] at h
      simp [← h.2]

/-- The body of

```
while let Some(line) = lines.next() {
    let splits = line.splitn(2, ':').map(str::trim).collect::<Vec<_>>();
    match splits[..] {
        [k, v] => { ...fold continuations, split on commas, insert... }
        [""] => continue,
        _ => return parse_error("malformed header input"),
    }
}
```

Fuel-bounded: at least one line is consumed per step, so
`fuel = number of lines` (as supplied by `processLines`) never runs out;
`none` from exhaustion or from `foldCont` models a panic, shown
unreachable by claim C9. -/
def processLinesGo : Nat → List Str → HeadersMap →
    Option (Except IoError HeadersMap)
  | _, [], inner => some (Except.ok inner)
  | 0, _ :: _, _ => none
  | fuel + 1, line :: rest, inner =>
    match (splitFirstColon line).map trimStr with
    | [k, v] =>
      match foldCont rest v with
      | none => none
      | some (s, rest') =>
        processLinesGo fuel rest' (entryInsertAll inner k (splitComma s))
    | [x] =>
      if x = [] then processLinesGo fuel rest inner
      else some (Except.error (parseErr msgMalformed))
    | _ => some (Except.error (parseErr msgMalformed))

def processLines (ls : List Str) (inner : HeadersMap) :
    Option (Except IoError HeadersMap) :=
  processLinesGo ls.length ls inner

/-- `Headers::try_from` on the decoded character sequence: version-line
check, then the header-line loop. -/
def tryFromChars (s : Str) : Option (Except IoError HeadersMap) :=
  match linesOf s with
  | [] => some (Except.error (parseErr msgMissingBlock))
  | first :: rest =>
    if strStartsWith first "NATS/".data then processLines rest []
    else some (Except.error (parseErr msgBadVersion))

/-- `impl TryFrom<&[u8]> for Headers`: UTF-8 decode, then parse.  The
outer `Option` models the one possible panic; `none` is shown
unreachable by claim C9. -/
def tryFromBytes (buf : List Nat) : Option (Except IoError HeadersMap) :=
  match decodeUtf8 buf with
  | none => some (Except.error (parseErr msgInvalidUtf8))
  | some s => tryFromChars s

/-! ## The serializer (`Headers::to_bytes`) -/

def crlf : Str := ['\r', '\n']

/-- The text assembled by `to_bytes`: the version line, one
`<name-trimmed>:<value-trimmed>\r\n` line per (name, value) pair, and a
final blank line. -/
def toChars (m : HeadersMap) : Str :=
  "NATS/1.0\r\n".data ++
    catMap (fun p =>
      catMap (fun v => trimStr p.1 ++ ':' :: (trimStr v ++ crlf)) p.2) m ++
    crlf

/-- `Headers::to_bytes`. -/
def toBytes (m : HeadersMap) : List Nat :=
  encodeUtf8 (toChars m)

end NatsHeaders

namespace NatsPull

open NatsHeaders

/-! ## Consumer handle lifecycle (`src/jetstream/pull_subscription.rs`)

`PullSubscription` is `Arc<Inner>`; `Inner`'s `Drop` implementation is

```
fn drop(&mut self) {
    if self.consumer_ownership == ConsumerOwnership::Yes {
        self.context.delete_consumer(&self.stream, &self.consumer).ok();
    }
}
```

`Arc` semantics (Rust standard library): each clone holds one reference;
releasing a clone decrements the strong count, and the `Inner` destructor
runs exactly when the count reaches zero.  Clones are interchangeable, so
a release order of `N` clones is modelled by the number of releases
performed so far. -/

/-- `ConsumerOwnership`: `Yes` = this handle owns (and must delete) the
consumer, `No` = the consumer pre-existed. -/
inductive ConsumerOwnership where
  | yes
  | no
deriving DecidableEq, Repr

/-- Observable state of one shared `Arc<Inner>` handle: remaining strong
references, number of times `Inner::drop` has run, and number of
`delete_consumer` requests issued to the administrative context. -/
structure HandleState where
  refs : Nat
  dropRuns : Nat
  deleteCalls : Nat
deriving DecidableEq, Repr

/-- A fresh handle shared by `n` subscription clones. -/
def initialState (n : Nat) : HandleState :=
  { refs := n, dropRuns := 0, deleteCalls := 0 }

/-- `Drop for Inner`: one `delete_consumer` request iff the handle owns
the consumer. -/
def innerDropState (ow : ConsumerOwnership) (st : HandleState) : HandleState :=
  { st with
    dropRuns := st.dropRuns + 1,
    deleteCalls :=
      if ow = ConsumerOwnership.yes then st.deleteCalls + 1
      else st.deleteCalls }

/-- Releasing one clone: decrement the strong count; the destructor runs
exactly when the last reference goes away. -/
def releaseClone (ow : ConsumerOwnership) (st : HandleState) : HandleState :=
  if st.refs = 0 then st
  else if st.refs = 1 then innerDropState ow { st with refs := 0 }
  else { st with refs := st.refs - 1 }

/-- `k` successive clone releases. -/
def releaseN (ow : ConsumerOwnership) : Nat → HandleState → HandleState
  | 0, st => st
  | k + 1, st => releaseN ow k (releaseClone ow st)

/-- Outcome of the `delete_consumer` request as seen by `Drop for Inner`
(`Result<DeleteResponse, Error>`): success, or one of the failures the
administrative context can report. -/
inductive DeleteOutcome where
  | success
  | networkError
  | notFound
deriving DecidableEq, Repr

/-- The delete request's `Result`, as a value. -/
def deleteResult : DeleteOutcome → Except IoError Unit
  | DeleteOutcome.success => Except.ok ()
  | DeleteOutcome.networkError =>
    Except.error { kind := EKind.other, message := "connection lost".data }
  | DeleteOutcome.notFound =>
    Except.error { kind := EKind.notFound, message := "consumer not found".data }

/-- `Drop for Inner`, tracking what the caller of the release observes:
the first component is the control-flow result handed back (an error
value would model a surfaced failure; the body ends `.ok()`, which is
`Result::ok`, discarding success and failure alike), the second the
number of delete requests issued. -/
def innerDrop (ow : ConsumerOwnership) (outcome : DeleteOutcome) :
    Except IoError Unit × Nat :=
  if ow = ConsumerOwnership.yes then
    match Except.toOption (deleteResult outcome) with
    | some _ => (Except.ok (), 1)
    | none => (Except.ok (), 1)
  else (Except.ok (), 0)

/-! ## `PullSubscription::fetch`

The source of `fetch` is, verbatim,

```
pub fn fetch(batch: i64) -> io::Result<Vec<Message>> {
    Ok(Fetch {})
}
```

an unconditional `Ok` around the unit struct `Fetch {}` (the body does
not even satisfy the declared return type `Vec<Message>`, and no batch
validation or transport interaction is present).  The model returns what
the body constructs. -/

/-- `pub struct Fetch {}`. -/
structure Fetch where
deriving DecidableEq, Repr

/-- `PullSubscription::fetch` as written in the source: ignores `batch`
and returns `Ok(Fetch {})`. -/
def fetch (batch : Int) : Except IoError Fetch :=
  let _ := batch
  Except.ok {}

end NatsPull

namespace NatsHeaders

/-! ## UTF-8 round-trip lemmas -/

theorem decodeOne_length {b : Nat} {rest : List Nat} {cp : Nat}
    {rest' : List Nat} (h : decodeOne b rest = some (cp, rest')) :
    rest'.length ≤ rest.length := by
  unfold decodeOne at h
  split_ifs at h with h1 h2 h3 h4
  · simp only [Option.some.injEq, Prod.mk.injEq] at h
    simp [h.2]
  · cases rest with
    | nil => simp at h
    | cons b1 r =>
      simp only at h
      split_ifs at h with hc
      simp only [Option.some.injEq, Prod.mk.injEq] at h
      simp [← h.2]
  · cases rest with
    | nil => simp at h
    | cons b1 r1 =>
      cases r1 with
      | nil => simp at h
      | cons b2 r =>
        simp only at h
        split_ifs at h with hc
        simp only [Option.some.injEq, Prod.mk.injEq] at h
        simp only [← h.2, List.length_cons]
        omega
  · cases rest with
    | nil => simp at h
    | cons b1 r1 =>
      cases r1 with
      | nil => simp at h
      | cons b2 r2 =>
        cases r2 with
        | nil => simp at h
        | cons b3 r =>
          simp only at h
          split_ifs at h with hc
          simp only [Option.some.injEq, Prod.mk.injEq] at h
          simp only [← h.2, List.length_cons]
          omega

/-- A Unicode scalar value: below the surrogate range or between it and
`0x110000` (the invariant carried by `Char`). -/
def ScalarNat (n : Nat) : Prop :=
  n < 0xd800 ∨ (0xdfff < n ∧ n < 0x110000)

theorem char_scalar (c : Char) : ScalarNat c.toNat := c.valid

/-- Evaluation of `decodeOne` on a two-byte sequence. -/
theorem decodeOne_two {b b1 : Nat} (h1 : ¬ b < 0x80) (h2 : 0xC2 ≤ b)
    (h3 : b ≤ 0xDF) (hc : isContByte b1 = true) (bs : List Nat) :
    decodeOne b (b1 :: bs) = some ((b - 0xC0) * 64 + (b1 - 0x80), bs) := by
  unfold decodeOne
  rw [if_neg h1]
  rw [if_pos (by simp only [Bool.and_eq_true, decide_eq_true_eq]; omega)]
  show (if isContByte b1 then some ((b - 0xC0) * 64 + (b1 - 0x80), bs)
    else none) = some ((b - 0xC0) * 64 + (b1 - 0x80), bs)
  rw [if_pos hc]

/-- Evaluation of `decodeOne` on a three-byte sequence. -/
theorem decodeOne_three {b b1 b2 : Nat} (h1 : 0xE0 ≤ b) (h2 : b ≤ 0xEF)
    (hv : validSecond3 b b1 = true) (hc : isContByte b2 = true)
    (bs : List Nat) :
    decodeOne b (b1 :: b2 :: bs) =
      some ((b - 0xE0) * 4096 + (b1 - 0x80) * 64 + (b2 - 0x80), bs) := by
  unfold decodeOne
  rw [if_neg (by omega)]
  rw [if_neg (by simp only [Bool.and_eq_true, decide_eq_true_eq]; omega)]
  rw [if_pos (by simp only [Bool.and_eq_true, decide_eq_true_eq]; omega)]
  show (if validSecond3 b b1 && isContByte b2 then
      some ((b - 0xE0) * 4096 + (b1 - 0x80) * 64 + (b2 - 0x80), bs)
    else none) =
    some ((b - 0xE0) * 4096 + (b1 - 0x80) * 64 + (b2 - 0x80), bs)
  rw [if_pos (by rw [hv, hc]; rfl)]

/-- Evaluation of `decodeOne` on a four-byte sequence. -/
theorem decodeOne_four {b b1 b2 b3 : Nat} (h1 : 0xF0 ≤ b) (h2 : b ≤ 0xF4)
    (hv : validSecond4 b b1 = true) (hc2 : isContByte b2 = true)
    (hc3 : isContByte b3 = true) (bs : List Nat) :
    decodeOne b (b1 :: b2 :: b3 :: bs) =
      some ((b - 0xF0) * 262144 + (b1 - 0x80) * 4096
        + (b2 - 0x80) * 64 + (b3 - 0x80), bs) := by
  unfold decodeOne
  rw [if_neg (by omega)]
  rw [if_neg (by simp only [Bool.and_eq_true, decide_eq_true_eq]; omega)]
  rw [if_neg (by simp only [Bool.and_eq_true, decide_eq_true_eq]; omega)]
  rw [if_pos (by simp only [Bool.and_eq_true, decide_eq_true_eq]; omega)]
  show (if validSecond4 b b1 && isContByte b2 && isContByte b3 then
      some ((b - 0xF0) * 262144 + (b1 - 0x80) * 4096
        + (b2 - 0x80) * 64 + (b3 - 0x80), bs)
    else none) =
    some ((b - 0xF0) * 262144 + (b1 - 0x80) * 4096
      + (b2 - 0x80) * 64 + (b3 - 0x80), bs)
  rw [if_pos (by rw [hv, hc2, hc3]; rfl)]

/-- Decoding the UTF-8 encoding of one scalar value consumes exactly its
bytes and returns the value. -/
theorem decodeOne_encodeChar {n : Nat} (hv : ScalarNat n) (bs : List Nat) :
    ∀ b tl, encodeChar n = b :: tl →
      decodeOne b (tl ++ bs) = some (n, bs) := by
  unfold ScalarNat at hv
  intro b tl h
  unfold encodeChar at h
  split_ifs at h with h1 h2 h3
  · -- one byte
    simp only [List.cons.injEq] at h
    obtain ⟨hb, htl⟩ := h
    subst hb; subst htl
    unfold decodeOne
    rw [if_pos h1]
    simp
  · -- two bytes
    simp only [List.cons.injEq] at h
    obtain ⟨hb, htl⟩ := h
    subst hb; subst htl
    simp only [List.cons_append, List.nil_append]
    rw [decodeOne_two (by omega) (by omega) (by omega)
      (by simp only [isContByte, Bool.and_eq_true, decide_eq_true_eq]; omega) bs]
    simp only [Option.some.injEq, Prod.mk.injEq]
    exact ⟨by omega, trivial⟩
  · -- three bytes
    simp only [List.cons.injEq] at h
    obtain ⟨hb, htl⟩ := h
    subst hb; subst htl
    simp only [List.cons_append, List.nil_append]
    rw [decodeOne_three (by omega) (by omega) ?hv3
      (by simp only [isContByte, Bool.and_eq_true, decide_eq_true_eq]; omega) bs]
    · simp only [Option.some.injEq, Prod.mk.injEq]
      exact ⟨by omega, trivial⟩
    case hv3 =>
      unfold validSecond3
      split_ifs with he hd
      all_goals simp only [Bool.and_eq_true, decide_eq_true_eq]
      · omega
      · omega
      · omega
  · -- four bytes
    simp only [List.cons.injEq] at h
    obtain ⟨hb, htl⟩ := h
    subst hb; subst htl
    simp only [List.cons_append, List.nil_append]
    rw [decodeOne_four (by omega) (by omega) ?hv4
      (by simp only [isContByte, Bool.and_eq_true, decide_eq_true_eq]; omega)
      (by simp only [isContByte, Bool.and_eq_true, decide_eq_true_eq]; omega) bs]
    · simp only [Option.some.injEq, Prod.mk.injEq]
      exact ⟨by omega, trivial⟩
    case hv4 =>
      unfold validSecond4
      split_ifs with he hd
      all_goals simp only [Bool.and_eq_true, decide_eq_true_eq]
      · omega
      · omega
      · omega

/-- Any sufficient fuel computes the same decoding. -/
theorem decodeUtf8Go_fuel :
    ∀ (fuel : Nat) (bs : List Nat), bs.length ≤ fuel →
      decodeUtf8Go fuel bs = decodeUtf8Go bs.length bs := by
  intro fuel
  induction fuel using Nat.strong_induction_on with
  | _ fuel ih =>
    intro bs hb
    cases fuel with
    | zero =>
      have : bs = [] := List.length_eq_zero.mp (Nat.le_zero.mp hb)
      subst this
      rfl
    | succ fuel =>
      cases bs with
      | nil => rfl
      | cons b rest =>
        simp only [List.length_cons] at hb ⊢
        show (match decodeOne b rest with
          | none => none
          | some (cp, rest') =>
            (decodeUtf8Go fuel rest').map (fun s => Char.ofNat cp :: s)) =
          (match decodeOne b rest with
          | none => none
          | some (cp, rest') =>
            (decodeUtf8Go rest.length rest').map
              (fun s => Char.ofNat cp :: s))
        cases hd : decodeOne b rest with
        | none => rfl
        | some p =>
          obtain ⟨cp, rest'⟩ := p
          have hlen : rest'.length ≤ rest.length := decodeOne_length hd
          show Option.map (fun s => Char.ofNat cp :: s)
              (decodeUtf8Go fuel rest') =
            Option.map (fun s => Char.ofNat cp :: s)
              (decodeUtf8Go rest.length rest')
          rw [ih fuel (Nat.lt_succ_self fuel) rest' (by omega)]
          rw [ih rest.length (by omega) rest' hlen]

theorem encodeChar_ne_nil (n : Nat) : encodeChar n ≠ [] := by
  unfold encodeChar
  split_ifs <;> simp

/-- UTF-8 round-trip: decoding an encoded character sequence gives it
back (every `Char` is a valid scalar value). -/
theorem decodeUtf8_encodeUtf8 (s : Str) :
    decodeUtf8 (encodeUtf8 s) = some s := by
  induction s with
  | nil => rfl
  | cons c cs ih =>
    cases he : encodeChar c.toNat with
    | nil => exact absurd he (encodeChar_ne_nil c.toNat)
    | cons b tl =>
      have hbytes : encodeUtf8 (c :: cs) = b :: (tl ++ encodeUtf8 cs) := by
        show encodeChar c.toNat ++ encodeUtf8 cs = b :: (tl ++ encodeUtf8 cs)
        rw [he]
        rfl
      unfold decodeUtf8
      rw [hbytes]
      simp only [List.length_cons]
      show (match decodeOne b (tl ++ encodeUtf8 cs) with
        | none => none
        | some (cp, rest') =>
          (decodeUtf8Go (tl ++ encodeUtf8 cs).length rest').map
            (fun t => Char.ofNat cp :: t)) = some (c :: cs)
      rw [decodeOne_encodeChar (char_scalar c) (encodeUtf8 cs) b tl he]
      show (decodeUtf8Go (tl ++ encodeUtf8 cs).length (encodeUtf8 cs)).map
        (fun t => Char.ofNat c.toNat :: t) = some (c :: cs)
      rw [decodeUtf8Go_fuel _ _ (by simp)]
      rw [show decodeUtf8Go (encodeUtf8 cs).length (encodeUtf8 cs)
        = decodeUtf8 (encodeUtf8 cs) from rfl]
      rw [ih]
      simp [Char.ofNat_toNat]

/-- Parsing an encoded character sequence is parsing the sequence. -/
theorem tryFromBytes_encodeUtf8 (s : Str) :
    tryFromBytes (encodeUtf8 s) = tryFromChars s := by
  unfold tryFromBytes
  rw [decodeUtf8_encodeUtf8]

/-! ## Lemmas on the string primitives -/

theorem mem_trimStr {c : Char} {l : Str} (h : c ∈ trimStr l) : c ∈ l := by
  unfold trimStr at h
  rw [List.mem_reverse] at h
  have h2 := (List.dropWhile_sublist isWsChar).subset h
  rw [List.mem_reverse] at h2
  exact (List.dropWhile_sublist isWsChar).subset h2

theorem trimStr_length_le (l : Str) : (trimStr l).length ≤ l.length := by
  have h1 := (List.dropWhile_sublist
    (l := (l.dropWhile isWsChar).reverse) isWsChar).length_le
  have h2 := (List.dropWhile_sublist (l := l) isWsChar).length_le
  unfold trimStr
  simp only [List.length_reverse] at h1 ⊢
  omega

/-- A nonempty string that equals its own trim does not start with
whitespace. -/
theorem trimStr_head_not_ws {c : Char} {t : Str}
    (h : trimStr (c :: t) = c :: t) : isWsChar c = false := by
  by_contra hw
  simp only [Bool.not_eq_false] at hw
  have hd : (c :: t).dropWhile isWsChar = t.dropWhile isWsChar := by
    rw [List.dropWhile_cons, if_pos hw]
  have hlen : (trimStr (c :: t)).length ≤ t.length := by
    have h1 := (List.dropWhile_sublist
      (l := (t.dropWhile isWsChar).reverse) isWsChar).length_le
    have h2 := (List.dropWhile_sublist (l := t) isWsChar).length_le
    unfold trimStr
    rw [hd]
    simp only [List.length_reverse] at h1 ⊢
    omega
  rw [h] at hlen
  simp only [List.length_cons] at hlen
  omega

theorem linesOf_other {c : Char} (cs : Str) (h1 : c ≠ '\n')
    (h2 : c ≠ '\r') : linesOf (c :: cs) = consFirst c (linesOf cs) := by
  rw [linesOf.eq_def]
  split
  next heq => exact absurd heq (by simp)
  next cs' heq =>
    simp only [List.cons.injEq] at heq
    exact absurd heq.1 h2
  next cs' heq =>
    simp only [List.cons.injEq] at heq
    exact absurd heq.1 h1
  next c' cs' heq =>
    simp only [List.cons.injEq] at heq
    rw [heq.1, heq.2]

/-- `'\r'` not followed by `'\n'` starts an ordinary character. -/
theorem linesOf_cr {cs : Str} (h : ∀ cs', cs ≠ '\n' :: cs') :
    linesOf ('\r' :: cs) = consFirst '\r' (linesOf cs) := by
  rw [linesOf.eq_def]
  split
  next heq => exact absurd heq (by simp)
  next cs' heq =>
    simp only [List.cons.injEq] at heq
    exact absurd heq.2 (h cs')
  next cs' heq =>
    simp only [List.cons.injEq] at heq
    exact absurd heq.1 (by decide)
  next c' cs' heq =>
    simp only [List.cons.injEq] at heq
    rw [heq.1, heq.2]

/-- A `'\n'`-free segment terminated by CRLF is one line. -/
theorem linesOf_append {l : Str} (rest : Str) (hn : '\n' ∉ l) :
    linesOf (l ++ '\r' :: '\n' :: rest) = l :: linesOf rest := by
  induction l with
  | nil => rfl
  | cons c l' ih =>
    have hc : c ≠ '\n' := fun hc => hn (hc ▸ List.mem_cons_self c l')
    have hn' : '\n' ∉ l' := fun hm => hn (List.mem_cons_of_mem c hm)
    by_cases hr : c = '\r'
    · subst hr
      rw [List.cons_append]
      rw [linesOf_cr ?hno]
      · rw [ih hn']
        rfl
      case hno =>
        intro cs' heq
        cases l' with
        | nil =>
          simp only [List.nil_append, List.cons.injEq] at heq
          exact absurd heq.1 (by decide)
        | cons d l'' =>
          simp only [List.cons_append, List.cons.injEq] at heq
          exact hn' (heq.1 ▸ List.mem_cons_self d l'')
    · rw [List.cons_append, linesOf_other _ hc hr, ih hn']
      rfl

theorem sfc_other {c : Char} (rest : Str) (h : c ≠ ':') :
    splitFirstColon (c :: rest) = consFirst c (splitFirstColon rest) := by
  rw [splitFirstColon.eq_def]
  split
  next heq => exact absurd heq (by simp)
  next cs' heq =>
    simp only [List.cons.injEq] at heq
    exact absurd heq.1 h
  next c' cs' heq =>
    simp only [List.cons.injEq] at heq
    rw [heq.1, heq.2]

theorem sfc_no_colon {l : Str} (h : ':' ∉ l) : splitFirstColon l = [l] := by
  induction l with
  | nil => rfl
  | cons c l' ih =>
    have hc : c ≠ ':' := fun hc => h (hc ▸ List.mem_cons_self c l')
    rw [sfc_other _ hc, ih (fun hm => h (List.mem_cons_of_mem c hm))]
    rfl

/-- Splitting a line with a colon-free name part. -/
theorem sfc_split {k : Str} (v : Str) (h : ':' ∉ k) :
    splitFirstColon (k ++ ':' :: v) = [k, v] := by
  induction k with
  | nil => rfl
  | cons c k' ih =>
    have hc : c ≠ ':' := fun hc => h (hc ▸ List.mem_cons_self c k')
    rw [List.cons_append, sfc_other _ hc,
      ih (fun hm => h (List.mem_cons_of_mem c hm))]
    rfl

theorem sfc_ne_nil (l : Str) : splitFirstColon l ≠ [] := by
  induction l with
  | nil => simp [splitFirstColon]
  | cons c l' ih =>
    by_cases hc : c = ':'
    · subst hc; simp [splitFirstColon]
    · rw [sfc_other _ hc]
      cases hs : splitFirstColon l' with
      | nil => exact absurd hs ih
      | cons p ps => simp [consFirst]

/-- The first piece returned by `splitn(2, ':')` contains no colon. -/
theorem sfc_first_no_colon :
    ∀ (l : Str) {p : Str} {ps : List Str},
      splitFirstColon l = p :: ps → ':' ∉ p := by
  intro l
  induction l with
  | nil =>
    intro p ps h
    simp only [splitFirstColon, List.cons.injEq] at h
    rw [← h.1]
    simp
  | cons c l' ih =>
    intro p ps h
    by_cases hc : c = ':'
    · subst hc
      simp only [splitFirstColon, List.cons.injEq] at h
      rw [← h.1]
      simp
    · rw [sfc_other _ hc] at h
      cases hs : splitFirstColon l' with
      | nil => exact absurd hs (sfc_ne_nil l')
      | cons q qs =>
        rw [hs] at h
        simp only [consFirst, List.cons.injEq] at h
        rw [← h.1]
        intro hm
        rcases List.mem_cons.mp hm with hm | hm
        · exact hc hm.symm
        · exact ih hs hm

theorem splitComma_other {c : Char} (rest : Str) (h : c ≠ ',') :
    splitComma (c :: rest) = consFirst c (splitComma rest) := by
  rw [splitComma.eq_def]
  split
  next heq => exact absurd heq (by simp)
  next cs' heq =>
    simp only [List.cons.injEq] at heq
    exact absurd heq.1 h
  next c' cs' heq =>
    simp only [List.cons.injEq] at heq
    rw [heq.1, heq.2]

theorem splitComma_no_comma {v : Str} (h : ',' ∉ v) : splitComma v = [v] := by
  induction v with
  | nil => rfl
  | cons c v' ih =>
    have hc : c ≠ ',' := fun hc => h (hc ▸ List.mem_cons_self c v')
    rw [splitComma_other _ hc, ih (fun hm => h (List.mem_cons_of_mem c hm))]
    rfl

/-- When the next line is not a continuation line (or there is none),
the folding loop consumes nothing. -/
theorem foldCont_nocont {ls : List Str} (s : Str)
    (h : ∀ t ts, ls = t :: ts → startsCont t = false) :
    foldCont ls s = some (s, ls) := by
  cases ls with
  | nil => rfl
  | cons l rest =>
    unfold foldCont
    rw [if_neg (by rw [h l rest rfl]; simp)]

/-- The folding loop never panics: a consumed line starts with a space or
a tab, and both are one byte wide. -/
theorem foldCont_isSome : ∀ (ls : List Str) (s : Str),
    (foldCont ls s).isSome = true := by
  intro ls
  induction ls with
  | nil => intro s; rfl
  | cons l rest ih =>
    intro s
    unfold foldCont
    by_cases hc : startsCont l
    · rw [if_pos hc]
      cases l with
      | nil => exact absurd hc (by simp [startsCont])
      | cons c t =>
        have h1 : charUtf8Len c = 1 := by
          have : is_continuation c = true := hc
          simp only [is_continuation, Bool.or_eq_true, decide_eq_true_eq]
            at this
          rcases this with h | h <;> subst h <;> rfl
        simp only [sliceFrom1, if_pos h1]
        exact ih (s ++ t)
    · rw [if_neg hc]
      rfl

/-! ## Lemmas on the multimap operations -/

theorem setInsert_not_mem {s : ValueSet} {v : Str} (h : v ∉ s) :
    setInsert s v = s ++ [v] := by
  unfold setInsert
  rw [if_neg h]

theorem insertPieces_single (s : ValueSet) (v : Str) :
    insertPieces s [v] = setInsert s v := rfl

/-- A property of all keys is preserved by an insertion whose key has
it. -/
theorem entryInsertAll_keyProp {P : Str → Prop} :
    ∀ (m : HeadersMap) (k : Str) (ps : List Str),
      (∀ p ∈ m, P p.1) → P k → ∀ p ∈ entryInsertAll m k ps, P p.1 := by
  intro m
  induction m with
  | nil =>
    intro k ps _ hk p hp
    simp only [entryInsertAll, List.mem_singleton] at hp
    rw [hp]
    exact hk
  | cons q m' ih =>
    intro k ps hm hk p hp
    obtain ⟨k', s⟩ := q
    simp only [entryInsertAll] at hp
    by_cases he : k' = k
    · rw [if_pos he] at hp
      rcases List.mem_cons.mp hp with hp | hp
      · rw [hp]
        exact hm (k', s) (List.mem_cons_self _ _)
      · exact hm p (List.mem_cons_of_mem _ hp)
    · rw [if_neg he] at hp
      rcases List.mem_cons.mp hp with hp | hp
      · rw [hp]
        exact hm (k', s) (List.mem_cons_self _ _)
      · exact ih k ps (fun q hq => hm q (List.mem_cons_of_mem _ hq)) hk p hp

/-- Inserting under a fresh key appends a new entry. -/
theorem entryInsertAll_fresh :
    ∀ {m : HeadersMap} {k : Str} (ps : List Str), k ∉ keysOf m →
      entryInsertAll m k ps = m ++ [(k, insertPieces [] ps)] := by
  intro m
  induction m with
  | nil => intro k ps _; rfl
  | cons q m' ih =>
    intro k ps hk
    obtain ⟨k', s⟩ := q
    have hne : k' ≠ k := by
      intro he
      exact hk (he ▸ List.mem_cons_self _ _)
    show (if k' = k then (k', insertPieces s ps) :: m'
      else (k', s) :: entryInsertAll m' k ps) = _
    rw [if_neg hne, ih ps (fun hm => hk (List.mem_cons_of_mem _ hm))]
    rfl

/-- Inserting under an existing key updates that entry in place. -/
theorem entryInsertAll_found :
    ∀ {m₁ : HeadersMap} {k : Str} (s : ValueSet) (m₂ : HeadersMap)
      (ps : List Str), k ∉ keysOf m₁ →
      entryInsertAll (m₁ ++ (k, s) :: m₂) k ps =
        m₁ ++ (k, insertPieces s ps) :: m₂ := by
  intro m₁
  induction m₁ with
  | nil =>
    intro k s m₂ ps _
    show (if k = k then (k, insertPieces s ps) :: m₂ else _) = _
    rw [if_pos rfl]
    rfl
  | cons q m' ih =>
    intro k s m₂ ps hk
    obtain ⟨k', s'⟩ := q
    have hne : k' ≠ k := by
      intro he
      exact hk (he ▸ List.mem_cons_self _ _)
    show (if k' = k then _ else
      (k', s') :: entryInsertAll (m' ++ (k, s) :: m₂) k ps) = _
    rw [if_neg hne, ih s m₂ ps (fun hm => hk (List.mem_cons_of_mem _ hm))]
    rfl

/-- `splitn(2, ':')` returns one or two pieces. -/
theorem sfc_shape (l : Str) :
    (∃ x, splitFirstColon l = [x]) ∨
      ∃ a b, splitFirstColon l = [a, b] := by
  induction l with
  | nil => exact Or.inl ⟨[], rfl⟩
  | cons c l' ih =>
    by_cases hc : c = ':'
    · subst hc
      exact Or.inr ⟨[], l', rfl⟩
    · rw [sfc_other _ hc]
      rcases ih with ⟨x, hx⟩ | ⟨a, b, hab⟩
      · rw [hx]
        exact Or.inl ⟨c :: x, rfl⟩
      · rw [hab]
        exact Or.inr ⟨c :: a, b, rfl⟩

/-- A line whose name part is already trimmed is not a continuation
line. -/
theorem startsCont_header_line {k : Str} (v : Str) (hk : trimStr k = k) :
    startsCont (k ++ ':' :: v) = false := by
  cases k with
  | nil => rfl
  | cons c t =>
    have hw := trimStr_head_not_ws hk
    show is_continuation c = false
    simp only [isWsChar, Bool.or_eq_false_iff, decide_eq_false_iff_not]
      at hw
    simp only [is_continuation, Bool.or_eq_false_iff,
      decide_eq_false_iff_not]
    exact ⟨hw.1.1.1, hw.1.1.2⟩

/-! ## Parser-wide invariants -/

/-- The line loop never panics (and never exhausts its fuel) when given
fuel at least the number of lines. -/
theorem processLinesGo_isSome :
    ∀ (fuel : Nat) (ls : List Str) (inner : HeadersMap),
      ls.length ≤ fuel → (processLinesGo fuel ls inner).isSome = true := by
  intro fuel
  induction fuel with
  | zero =>
    intro ls inner h
    have : ls = [] := List.length_eq_zero.mp (Nat.le_zero.mp h)
    subst this
    rfl
  | succ fuel ih =>
    intro ls inner h
    cases ls with
    | nil => rfl
    | cons line rest =>
      simp only [List.length_cons] at h
      rcases sfc_shape line with ⟨x, hx⟩ | ⟨a, b, hab⟩
      · simp only [processLinesGo, hx, List.map]
        by_cases hxe : trimStr x = []
        · rw [if_pos hxe]
          exact ih rest inner (by omega)
        · rw [if_neg hxe]
          rfl
      · simp only [processLinesGo, hab, List.map]
        obtain ⟨p, hp⟩ :=
          Option.isSome_iff_exists.mp (foldCont_isSome rest (trimStr b))
        obtain ⟨s, rest'⟩ := p
        rw [hp]
        exact ih rest' _ (le_trans (foldCont_length hp) (by omega))

/-- Every error produced by the line loop is the malformed-header
error. -/
theorem processLinesGo_error :
    ∀ (fuel : Nat) (ls : List Str) (inner : HeadersMap) (e : IoError),
      processLinesGo fuel ls inner = some (Except.error e) →
      e = parseErr msgMalformed := by
  intro fuel
  induction fuel with
  | zero =>
    intro ls inner e h
    cases ls with
    | nil => simp [processLinesGo] at h
    | cons line rest => simp [processLinesGo] at h
  | succ fuel ih =>
    intro ls inner e h
    cases ls with
    | nil => simp [processLinesGo] at h
    | cons line rest =>
      rcases sfc_shape line with ⟨x, hx⟩ | ⟨a, b, hab⟩
      · simp only [processLinesGo, hx, List.map] at h
        by_cases hxe : trimStr x = []
        · rw [if_pos hxe] at h
          exact ih rest inner e h
        · rw [if_neg hxe] at h
          simp only [Option.some.injEq, Except.error.injEq] at h
          exact h.symm
      · simp only [processLinesGo, hab, List.map] at h
        obtain ⟨p, hp⟩ :=
          Option.isSome_iff_exists.mp (foldCont_isSome rest (trimStr b))
        obtain ⟨s, rest'⟩ := p
        rw [hp] at h
        exact ih rest' _ e h

/-- Every key the line loop adds is the trim of the part of a line
before its first colon, hence colon-free. -/
theorem processLinesGo_keys :
    ∀ (fuel : Nat) (ls : List Str) (inner m : HeadersMap),
      (∀ p ∈ inner, ':' ∉ p.1) →
      processLinesGo fuel ls inner = some (Except.ok m) →
      ∀ p ∈ m, ':' ∉ p.1 := by
  intro fuel
  induction fuel with
  | zero =>
    intro ls inner m hin h
    cases ls with
    | nil =>
      simp only [processLinesGo, Option.some.injEq, Except.ok.injEq] at h
      exact h ▸ hin
    | cons line rest => simp [processLinesGo] at h
  | succ fuel ih =>
    intro ls inner m hin h
    cases ls with
    | nil =>
      simp only [processLinesGo, Option.some.injEq, Except.ok.injEq] at h
      exact h ▸ hin
    | cons line rest =>
      rcases sfc_shape line with ⟨x, hx⟩ | ⟨a, b, hab⟩
      · simp only [processLinesGo, hx, List.map] at h
        by_cases hxe : trimStr x = []
        · rw [if_pos hxe] at h
          exact ih rest inner m hin h
        · rw [if_neg hxe] at h
          simp at h
      · simp only [processLinesGo, hab, List.map] at h
        obtain ⟨p, hp⟩ :=
          Option.isSome_iff_exists.mp (foldCont_isSome rest (trimStr b))
        obtain ⟨s, rest'⟩ := p
        rw [hp] at h
        have hka : ':' ∉ trimStr a :=
          fun hm => sfc_first_no_colon line hab (mem_trimStr hm)
        exact ih rest' _ m
          (entryInsertAll_keyProp (P := fun k => ':' ∉ k) inner (trimStr a)
            (splitComma s) hin hka)
          h

/-! ## Processing the serialized lines of a headers map -/

/-- The header lines that `to_bytes` emits for a map whose names and
values are already trimmed, as the line list seen by the parser. -/
def entryLines (m : HeadersMap) : List Str :=
  catMap (fun p => p.2.map (fun v => p.1 ++ ':' :: v)) m

/-- A header name that survives the codec byte-identically: trimmed,
colon-free and newline-free. -/
abbrev WfName (k : Str) : Prop := trimStr k = k ∧ ':' ∉ k ∧ '\n' ∉ k

/-- A header value that survives the codec byte-identically: trimmed,
comma-free and newline-free. -/
abbrev WfValue (v : Str) : Prop := trimStr v = v ∧ ',' ∉ v ∧ '\n' ∉ v

/-- A headers map in the image of parsing with well-formed contents:
pairwise-distinct names, each with a nonempty duplicate-free value
set. -/
abbrev WfHeaders (m : HeadersMap) : Prop :=
  (keysOf m).Nodup ∧
    ∀ p ∈ m, WfName p.1 ∧ p.2 ≠ [] ∧ p.2.Nodup ∧ ∀ v ∈ p.2, WfValue v

/-- Processing the value lines of one entry appends the values to that
entry's set. -/
theorem processLines_vals :
    ∀ (vs : List Str) (tail : List Str) (k : Str) (m₁ m₂ : HeadersMap)
      (done : ValueSet),
      trimStr k = k → ':' ∉ k →
      (∀ v ∈ vs, trimStr v = v ∧ ',' ∉ v) →
      vs.Nodup → (∀ v ∈ vs, v ∉ done) →
      k ∉ keysOf m₁ →
      (∀ t ts, tail = t :: ts → startsCont t = false) →
      processLines (vs.map (fun v => k ++ ':' :: v) ++ tail)
          (m₁ ++ (k, done) :: m₂) =
        processLines tail (m₁ ++ (k, done ++ vs) :: m₂) := by
  intro vs
  induction vs with
  | nil =>
    intro tail k m₁ m₂ done _ _ _ _ _ _ _
    simp
  | cons v vs' ih =>
    intro tail k m₁ m₂ done hk hkc hvs hnd hdone hm₁ htail
    obtain ⟨hvt, hvc⟩ := hvs v (List.mem_cons_self v vs')
    have hrest : ∀ t ts,
        (vs'.map (fun v => k ++ ':' :: v) ++ tail) = t :: ts →
        startsCont t = false := by
      intro t ts heq
      cases vs' with
      | nil =>
        rw [List.map_nil, List.nil_append] at heq
        exact htail t ts heq
      | cons w vs'' =>
        simp only [List.map_cons, List.cons_append, List.cons.injEq] at heq
        rw [← heq.1]
        exact startsCont_header_line w hk
    show processLinesGo _ _ _ = _
    simp only [List.map_cons, List.cons_append, List.length_cons,
      processLinesGo]
    rw [sfc_split v hkc]
    simp only [List.map_cons, List.map_nil]
    rw [hk, hvt]
    simp only [List.append_eq]
    rw [foldCont_nocont v hrest]
    simp only []
    rw [splitComma_no_comma hvc]
    rw [entryInsertAll_found done m₂ [v] hm₁]
    rw [insertPieces_single, setInsert_not_mem
      (hdone v (List.mem_cons_self v vs'))]
    rw [show processLinesGo (vs'.map (fun v => k ++ ':' :: v) ++ tail).length
        (vs'.map (fun v => k ++ ':' :: v) ++ tail)
        (m₁ ++ (k, done ++ [v]) :: m₂)
      = processLines (vs'.map (fun v => k ++ ':' :: v) ++ tail)
        (m₁ ++ (k, done ++ [v]) :: m₂) from rfl]
    rw [ih tail k m₁ m₂ (done ++ [v]) hk hkc
      (fun w hw => hvs w (List.mem_cons_of_mem v hw))
      (List.nodup_cons.mp hnd).2
      (fun w hw => by
        intro hmem
        rcases List.mem_append.mp hmem with hmem | hmem
        · exact hdone w (List.mem_cons_of_mem v hw) hmem
        · rw [List.mem_singleton] at hmem
          exact (List.nodup_cons.mp hnd).1 (hmem ▸ hw))
      hm₁ htail]
    rw [List.append_assoc]
    rfl

/-- The first serialized line, if any, is never a continuation line. -/
theorem entryLines_head_not_cont :
    ∀ (m : HeadersMap) (tail : List Str),
      (∀ p ∈ m, trimStr p.1 = p.1) →
      (∀ t ts, tail = t :: ts → startsCont t = false) →
      ∀ t ts, entryLines m ++ tail = t :: ts → startsCont t = false := by
  intro m
  induction m with
  | nil =>
    intro tail _ htail t ts heq
    exact htail t ts heq
  | cons p m' ih =>
    intro tail hm htail t ts heq
    obtain ⟨k, vs⟩ := p
    cases vs with
    | nil =>
      exact ih tail (fun q hq => hm q (List.mem_cons_of_mem _ hq))
        htail t ts heq
    | cons v vs' =>
      simp only [entryLines, catMap, List.map_cons, List.cons_append,
        List.cons.injEq] at heq
      rw [← heq.1]
      exact startsCont_header_line v (hm (k, v :: vs') (List.mem_cons_self _ _))

/-- Processing all serialized entry lines of a well-formed map appends
the map to the accumulator. -/
theorem processLines_entries :
    ∀ (m : HeadersMap) (tail : List Str) (acc : HeadersMap),
      WfHeaders m →
      (∀ k ∈ keysOf m, k ∉ keysOf acc) →
      (∀ t ts, tail = t :: ts → startsCont t = false) →
      processLines (entryLines m ++ tail) acc =
        processLines tail (acc ++ m) := by
  intro m
  induction m with
  | nil =>
    intro tail acc _ _ _
    simp [entryLines, catMap]
  | cons p m' ih =>
    intro tail acc hwf hdis htail
    obtain ⟨k, vs⟩ := p
    obtain ⟨hknodup, hent⟩ := hwf
    obtain ⟨hkwf, hvne, hvnd, hvwf⟩ := hent (k, vs) (List.mem_cons_self _ _)
    cases vs with
    | nil => exact absurd rfl hvne
    | cons v₀ vrest =>
      have hm' : ∀ p ∈ m', trimStr p.1 = p.1 := by
        intro q hq
        exact (hent q (List.mem_cons_of_mem _ hq)).1.1
      have htail' : ∀ t ts, entryLines m' ++ tail = t :: ts →
          startsCont t = false :=
        entryLines_head_not_cont m' tail hm' htail
      have hkacc : k ∉ keysOf acc :=
        hdis k (List.mem_cons_self k (keysOf m'))
      -- first value line creates the entry
      show processLinesGo _ _ _ = _
      simp only [entryLines, catMap, List.map_cons, List.cons_append,
        List.append_assoc, List.length_cons, processLinesGo]
      rw [show catMap (fun p => List.map (fun v => p.1 ++ ':' :: v) p.2) m'
        = entryLines m' from rfl]
      rw [sfc_split v₀ hkwf.2.1]
      simp only [List.map_cons, List.map_nil]
      rw [hkwf.1, (hvwf v₀ (List.mem_cons_self _ _)).1]
      have hrest0 : ∀ t ts,
          (vrest.map (fun v => k ++ ':' :: v) ++ (entryLines m' ++ tail))
            = t :: ts → startsCont t = false := by
        intro t ts heq
        cases vrest with
        | nil =>
          rw [List.map_nil, List.nil_append] at heq
          exact htail' t ts heq
        | cons w vs'' =>
          simp only [List.map_cons, List.cons_append, List.cons.injEq]
            at heq
          rw [← heq.1]
          exact startsCont_header_line w hkwf.1
      simp only [List.append_eq]
      rw [List.append_assoc]
      rw [foldCont_nocont v₀ hrest0]
      simp only []
      rw [splitComma_no_comma ((hvwf v₀ (List.mem_cons_self _ _)).2.1)]
      rw [entryInsertAll_fresh [v₀] hkacc]
      have hip : insertPieces [] [v₀] = [v₀] := by
        rw [insertPieces_single]
        simp [setInsert]
      rw [hip]
      rw [show ∀ (ls : List Str) (m₀ : HeadersMap),
          processLinesGo ls.length ls m₀ = processLines ls m₀
        from fun _ _ => rfl]
      rw [show acc ++ [(k, [v₀])] = acc ++ (k, [v₀]) :: [] from rfl]
      rw [processLines_vals vrest (entryLines m' ++ tail) k acc [] [v₀]
        hkwf.1 hkwf.2.1
        (fun w hw =>
          ⟨(hvwf w (List.mem_cons_of_mem _ hw)).1,
            (hvwf w (List.mem_cons_of_mem _ hw)).2.1⟩)
        (List.nodup_cons.mp hvnd).2
        (fun w hw => by
          rw [List.mem_singleton]
          intro he
          exact (List.nodup_cons.mp hvnd).1 (he ▸ hw))
        hkacc htail']
      have hdis' : ∀ q ∈ keysOf m', q ∉ keysOf (acc ++ [(k, v₀ :: vrest)]) := by
        intro q hq
        rw [show keysOf (acc ++ [(k, v₀ :: vrest)])
            = keysOf acc ++ [k] from by simp [keysOf]]
        intro hmem
        rcases List.mem_append.mp hmem with hmem | hmem
        · exact hdis q (List.mem_cons_of_mem _ hq) hmem
        · rw [List.mem_singleton] at hmem
          exact (List.nodup_cons.mp hknodup).1 (hmem ▸ hq)
      have hwf' : WfHeaders m' :=
        ⟨(List.nodup_cons.mp hknodup).2,
          fun q hq => hent q (List.mem_cons_of_mem _ hq)⟩
      rw [show ([v₀] ++ vrest) = v₀ :: vrest from rfl]
      rw [show acc ++ (k, v₀ :: vrest) :: ([] : HeadersMap)
          = acc ++ [(k, v₀ :: vrest)] from rfl]
      rw [ih tail (acc ++ [(k, v₀ :: vrest)]) hwf' hdis' htail]
      rw [List.append_assoc]
      rfl

/-! ## Cutting the serialized text back into lines -/

theorem catMap_congr {α β : Type} {f g : α → List β} :
    ∀ {l : List α}, (∀ a ∈ l, f a = g a) → catMap f l = catMap g l := by
  intro l
  induction l with
  | nil => intro _; rfl
  | cons a l' ih =>
    intro h
    show f a ++ catMap f l' = g a ++ catMap g l'
    rw [h a (List.mem_cons_self _ _), ih (fun b hb => h b (List.mem_cons_of_mem _ hb))]

/-- The serialized lines of one entry. -/
theorem linesOf_serial_entry :
    ∀ (vs : List Str) (k : Str) (rest : Str), '\n' ∉ k →
      (∀ v ∈ vs, '\n' ∉ v) →
      linesOf (catMap (fun v => k ++ ':' :: (v ++ crlf)) vs ++ rest) =
        vs.map (fun v => k ++ ':' :: v) ++ linesOf rest := by
  intro vs
  induction vs with
  | nil => intro k rest _ _; rfl
  | cons v vs' ih =>
    intro k rest hk hvs
    have hshape : catMap (fun v => k ++ ':' :: (v ++ crlf)) (v :: vs') ++ rest
        = (k ++ ':' :: v) ++
          '\r' :: '\n' :: (catMap (fun v => k ++ ':' :: (v ++ crlf)) vs' ++ rest) := by
      show (k ++ ':' :: (v ++ crlf)) ++ _ ++ rest = _
      simp [crlf, List.append_assoc]
    rw [hshape]
    rw [linesOf_append _ (by
      intro hm
      rcases List.mem_append.mp hm with hm | hm
      · exact hk hm
      · rcases List.mem_cons.mp hm with hm | hm
        · exact absurd hm (by decide)
        · exact hvs v (List.mem_cons_self _ _) hm)]
    rw [ih k rest hk (fun w hw => hvs w (List.mem_cons_of_mem _ hw))]
    rfl

/-- The serialized lines of a whole map. -/
theorem linesOf_serial_body :
    ∀ (m : HeadersMap) (rest : Str),
      (∀ p ∈ m, '\n' ∉ p.1 ∧ ∀ v ∈ p.2, '\n' ∉ v) →
      linesOf (catMap
          (fun p => catMap (fun v => p.1 ++ ':' :: (v ++ crlf)) p.2) m
        ++ rest) =
        entryLines m ++ linesOf rest := by
  intro m
  induction m with
  | nil => intro rest _; rfl
  | cons p m' ih =>
    intro rest hm
    obtain ⟨k, vs⟩ := p
    show linesOf ((catMap (fun v => k ++ ':' :: (v ++ crlf)) vs ++ _) ++ rest)
      = (vs.map (fun v => k ++ ':' :: v) ++ entryLines m') ++ linesOf rest
    rw [List.append_assoc]
    rw [linesOf_serial_entry vs k _
      ((hm (k, vs) (List.mem_cons_self _ _)).1)
      ((hm (k, vs) (List.mem_cons_self _ _)).2)]
    rw [ih rest (fun q hq => hm q (List.mem_cons_of_mem _ hq))]
    rw [List.append_assoc]

/-- Round-trip at the heart of claim C3: serializing a well-formed map
and parsing the bytes back returns exactly the same map. -/
theorem tryFromBytes_toBytes (m : HeadersMap) (hwf : WfHeaders m) :
    tryFromBytes (toBytes m) = some (Except.ok m) := by
  unfold toBytes
  rw [tryFromBytes_encodeUtf8]
  have hbody : catMap
      (fun p => catMap (fun v => trimStr p.1 ++ ':' :: (trimStr v ++ crlf)) p.2) m
      = catMap (fun p => catMap (fun v => p.1 ++ ':' :: (v ++ crlf)) p.2) m := by
    apply catMap_congr
    intro p hp
    obtain ⟨hname, _, _, hvals⟩ := hwf.2 p hp
    rw [hname.1]
    apply catMap_congr
    intro v hv
    rw [(hvals v hv).1]
  have hchars : toChars m = "NATS/1.0".data ++ '\r' :: '\n' ::
      (catMap (fun p => catMap (fun v => p.1 ++ ':' :: (v ++ crlf)) p.2) m
        ++ crlf) := by
    unfold toChars
    rw [hbody]
    rw [show ("NATS/1.0\r\n".data : Str)
      = "NATS/1.0".data ++ '\r' :: '\n' :: [] from rfl]
    simp [List.append_assoc]
  have hnl : ∀ p ∈ m, '\n' ∉ p.1 ∧ ∀ v ∈ p.2, '\n' ∉ v := by
    intro p hp
    obtain ⟨hname, _, _, hvals⟩ := hwf.2 p hp
    exact ⟨hname.2.2, fun v hv => (hvals v hv).2.2⟩
  have hlines : linesOf (toChars m)
      = "NATS/1.0".data :: (entryLines m ++ [[]]) := by
    rw [hchars]
    rw [linesOf_append _ (by decide)]
    rw [linesOf_serial_body m crlf hnl]
    rfl
  unfold tryFromChars
  rw [hlines]
  show (if strStartsWith "NATS/1.0".data "NATS/".data
    then processLines (entryLines m ++ [[]]) []
    else some (Except.error (parseErr msgBadVersion))) = some (Except.ok m)
  rw [if_pos (by decide)]
  rw [processLines_entries m [[]] []
    hwf
    (by intro k _ hk; simp [keysOf] at hk)
    (by
      intro t ts heq
      simp only [List.cons.injEq] at heq
      rw [← heq.1]
      rfl)]
  show processLines [[]] m = some (Except.ok m)
  rfl

/-! ## Parsing a single header line after the version line -/

/-- A non-whitespace character of a string survives its trim. -/
theorem mem_trimStr_of_not_ws :
    ∀ {l : Str} {c : Char}, c ∈ l → isWsChar c = false → c ∈ trimStr l := by
  have hdw : ∀ (l : Str) (c : Char), c ∈ l → isWsChar c = false →
      c ∈ l.dropWhile isWsChar := by
    intro l
    induction l with
    | nil => intro c hc _; exact absurd hc (List.not_mem_nil c)
    | cons d t ih =>
      intro c hc hw
      rw [List.dropWhile_cons]
      by_cases hd : isWsChar d
      · rw [if_pos hd]
        rcases List.mem_cons.mp hc with hc | hc
        · rw [hc] at hw
          rw [hd] at hw
          exact absurd hw (by simp)
        · exact ih c hc hw
      · rw [if_neg hd]
        exact hc
  intro l c hc hw
  unfold trimStr
  rw [List.mem_reverse]
  apply hdw
  · rw [List.mem_reverse]
    exact hdw l c hc hw
  · exact hw

/-- A string that trims to nothing contains no colon. -/
theorem no_colon_of_trim_nil {l : Str} (h : trimStr l = []) : ':' ∉ l := by
  intro hc
  have := mem_trimStr_of_not_ws hc (by decide)
  rw [h] at this
  exact List.not_mem_nil _ this

/-- Processing a single `name:value` line. -/
theorem processLines_single_header {k : Str} (v : Str) (hk : ':' ∉ k) :
    processLines [k ++ ':' :: v] [] =
      some (Except.ok
        [(trimStr k, insertPieces [] (splitComma (trimStr v)))]) := by
  show processLinesGo ([k ++ ':' :: v]).length _ _ = _
  simp only [List.length_cons, List.length_nil, processLinesGo]
  rw [sfc_split v hk]
  simp only [List.map_cons, List.map_nil]
  rfl

/-- Processing a single line that trims to nothing: skipped. -/
theorem processLines_single_blank {l : Str} (h : trimStr l = [])
    (inner : HeadersMap) :
    processLines [l] inner = some (Except.ok inner) := by
  show processLinesGo ([l]).length _ _ = _
  simp only [List.length_cons, List.length_nil, processLinesGo]
  rw [sfc_no_colon (no_colon_of_trim_nil h)]
  simp only [List.map_cons, List.map_nil]
  show (if trimStr l = [] then processLinesGo 0 [] inner
    else some (Except.error (parseErr msgMalformed))) = _
  rw [if_pos h]
  rfl

/-- Processing a single colon-free line that does not trim to nothing:
the malformed-header error. -/
theorem processLines_single_malformed {l : Str} (hc : ':' ∉ l)
    (h : trimStr l ≠ []) (inner : HeadersMap) :
    processLines [l] inner =
      some (Except.error (parseErr msgMalformed)) := by
  show processLinesGo ([l]).length _ _ = _
  simp only [List.length_cons, List.length_nil, processLinesGo]
  rw [sfc_no_colon hc]
  simp only [List.map_cons, List.map_nil]
  show (if trimStr l = [] then processLinesGo 0 [] inner
    else some (Except.error (parseErr msgMalformed))) = _
  rw [if_neg h]

/-- Parsing a block consisting of the version line and one further
line. -/
theorem tryFromChars_one_line {l : Str} (hnl : '\n' ∉ l) :
    tryFromChars ("NATS/1.0\r\n".data ++ l ++ crlf) =
      processLines [l] [] := by
  have hshape : "NATS/1.0\r\n".data ++ l ++ crlf
      = "NATS/1.0".data ++ '\r' :: '\n' :: (l ++ '\r' :: '\n' :: []) := by
    rw [show ("NATS/1.0\r\n".data : Str)
      = "NATS/1.0".data ++ '\r' :: '\n' :: [] from rfl]
    simp [crlf, List.append_assoc]
  unfold tryFromChars
  rw [hshape]
  rw [linesOf_append _ (by decide)]
  rw [linesOf_append [] hnl]
  show (if strStartsWith "NATS/1.0".data "NATS/".data
    then processLines [l] [] else some (Except.error (parseErr msgBadVersion)))
    = processLines [l] []
  rw [if_pos (by decide)]

/-! ## Top-level parser facts -/

/-- `try_from` always returns a value: no panic, for every byte input. -/
theorem tryFromBytes_isSome (buf : List Nat) :
    (tryFromBytes buf).isSome = true := by
  unfold tryFromBytes
  cases hd : decodeUtf8 buf with
  | none => rfl
  | some s =>
    show (tryFromChars s).isSome = true
    unfold tryFromChars
    cases hl : linesOf s with
    | nil => rfl
    | cons first rest =>
      show (if strStartsWith first "NATS/".data then processLines rest []
        else some (Except.error (parseErr msgBadVersion))).isSome = true
      by_cases hv : strStartsWith first "NATS/".data
      · rw [if_pos hv]
        exact processLinesGo_isSome rest.length rest [] le_rfl
      · rw [if_neg hv]
        rfl

/-- Every parse failure is an `InvalidInput` error carrying one of the
four fixed messages. -/
theorem tryFromBytes_error (buf : List Nat) (e : IoError)
    (h : tryFromBytes buf = some (Except.error e)) :
    e.kind = EKind.invalidInput ∧
      (e.message = msgInvalidUtf8 ∨ e.message = msgMissingBlock ∨
        e.message = msgBadVersion ∨ e.message = msgMalformed) := by
  unfold tryFromBytes at h
  cases hd : decodeUtf8 buf with
  | none =>
    rw [hd] at h
    change some (Except.error (parseErr msgInvalidUtf8))
      = some (Except.error e) at h
    simp only [Option.some.injEq, Except.error.injEq] at h
    rw [← h]
    exact ⟨rfl, Or.inl rfl⟩
  | some s =>
    rw [hd] at h
    change tryFromChars s = some (Except.error e) at h
    unfold tryFromChars at h
    cases hl : linesOf s with
    | nil =>
      rw [hl] at h
      change some (Except.error (parseErr msgMissingBlock))
        = some (Except.error e) at h
      simp only [Option.some.injEq, Except.error.injEq] at h
      rw [← h]
      exact ⟨rfl, Or.inr (Or.inl rfl)⟩
    | cons first rest =>
      rw [hl] at h
      change (if strStartsWith first "NATS/".data then processLines rest []
        else some (Except.error (parseErr msgBadVersion)))
        = some (Except.error e) at h
      by_cases hv : strStartsWith first "NATS/".data
      · rw [if_pos hv] at h
        have := processLinesGo_error rest.length rest [] e h
        rw [this]
        exact ⟨rfl, Or.inr (Or.inr (Or.inr rfl))⟩
      · rw [if_neg hv] at h
        simp only [Option.some.injEq, Except.error.injEq] at h
        rw [← h]
        exact ⟨rfl, Or.inr (Or.inr (Or.inl rfl))⟩

/-- Every name in a successfully parsed map is colon-free. -/
theorem tryFromBytes_keys (buf : List Nat) (m : HeadersMap)
    (h : tryFromBytes buf = some (Except.ok m)) :
    ∀ p ∈ m, ':' ∉ p.1 := by
  unfold tryFromBytes at h
  cases hd : decodeUtf8 buf with
  | none =>
    rw [hd] at h
    change some (Except.error (parseErr msgInvalidUtf8))
      = some (Except.ok m) at h
    simp at h
  | some s =>
    rw [hd] at h
    change tryFromChars s = some (Except.ok m) at h
    unfold tryFromChars at h
    cases hl : linesOf s with
    | nil =>
      rw [hl] at h
      change some (Except.error (parseErr msgMissingBlock))
        = some (Except.ok m) at h
      simp at h
    | cons first rest =>
      rw [hl] at h
      change (if strStartsWith first "NATS/".data then processLines rest []
        else some (Except.error (parseErr msgBadVersion)))
        = some (Except.ok m) at h
      by_cases hv : strStartsWith first "NATS/".data
      · rw [if_pos hv] at h
        exact processLinesGo_keys rest.length rest [] m (by simp) h
      · rw [if_neg hv] at h
        simp at h

end NatsHeaders

namespace NatsPull

/-! ## Reference-count lemmas -/

/-- Before the last reference is gone, releases only decrement the
count. -/
theorem releaseN_before_last (ow : ConsumerOwnership) :
    ∀ (k n d c : Nat), k < n →
      releaseN ow k ⟨n, d, c⟩ = ⟨n - k, d, c⟩ := by
  intro k
  induction k with
  | zero =>
    intro n d c _
    rfl
  | succ k ih =>
    intro n d c hk
    show releaseN ow k (releaseClone ow ⟨n, d, c⟩) = _
    have h0 : n ≠ 0 := by omega
    have h1 : n ≠ 1 := by omega
    rw [show releaseClone ow ⟨n, d, c⟩ = ⟨n - 1, d, c⟩ from by
      unfold releaseClone
      rw [if_neg (by simpa using h0), if_neg (by simpa using h1)]]
    rw [ih (n - 1) d c (by omega)]
    congr 1
    omega

theorem releaseN_add (ow : ConsumerOwnership) :
    ∀ (a b : Nat) (st : HandleState),
      releaseN ow (a + b) st = releaseN ow b (releaseN ow a st) := by
  intro a
  induction a with
  | zero =>
    intro b st
    rw [Nat.zero_add]
    rfl
  | succ a ih =>
    intro b st
    rw [Nat.succ_add]
    show releaseN ow (a + b) (releaseClone ow st) = _
    rw [ih b (releaseClone ow st)]
    rfl

end NatsPull

namespace NatsClaims

open NatsHeaders NatsPull

/-! ## The claims -/

/-- C1, counterexample: for the input block
`"NATS/1.0\r\nx-test: one\r\n two\r\n three\r\n"` (single-space
continuation lines), parsing stores the single value `"onetwothree"`,
not the claimed `"one two three"`: the one leading space is the
character the folding rule strips, and no separator is inserted. -/
theorem c1_counterexample :
    tryFromBytes
        (encodeUtf8 "NATS/1.0\r\nx-test: one\r\n two\r\n three\r\n".data)
      = some (Except.ok [("x-test".data, ["onetwothree".data])])
    ∧ "one two three".data ∉ ["onetwothree".data] := by
  constructor
  · decide
  · decide

/-- C1, amended: for that same input the parse produces under `"x-test"`
the single value `"onetwothree"` — each continuation line's content minus
its single leading whitespace character, appended directly with no
separator. -/
theorem c1_amended :
    tryFromBytes
        (encodeUtf8 "NATS/1.0\r\nx-test: one\r\n two\r\n three\r\n".data)
      = some (Except.ok [("x-test".data, ["onetwothree".data])]) := by
  decide

/-- C2, counterexample: `"x-test: one, two"` parses to the value set
`{"one", " two"}` — the piece after the comma keeps its leading space,
because pieces are inserted without per-piece trimming. -/
theorem c2_counterexample :
    tryFromBytes (encodeUtf8 "NATS/1.0\r\nx-test: one, two\r\n".data)
      = some (Except.ok [("x-test".data, ["one".data, " two".data])])
    ∧ "two".data ∉ ["one".data, " two".data] := by
  constructor
  · decide
  · decide

/-- C2, amended: for a parsed header line the whole value is trimmed
once (at the name/value split), then split on commas, and each piece is
inserted verbatim with no further trimming. -/
theorem c2_amended (k v : Str) (hk : ':' ∉ k) (hnk : '\n' ∉ k)
    (hnv : '\n' ∉ v) :
    tryFromBytes (encodeUtf8 ("NATS/1.0\r\n".data ++ (k ++ ':' :: v) ++ crlf))
      = some (Except.ok
          [(trimStr k, insertPieces [] (splitComma (trimStr v)))]) := by
  rw [tryFromBytes_encodeUtf8]
  rw [tryFromChars_one_line (by
    intro hm
    rcases List.mem_append.mp hm with hm | hm
    · exact hnk hm
    · rcases List.mem_cons.mp hm with hm | hm
      · exact absurd hm (by decide)
      · exact hnv hm)]
  exact processLines_single_header v hk

/-- Witness for C2: the line `"x-test: one, two"` yields exactly
`{"one", " two"}`. -/
theorem c2_amended_witness :
    tryFromBytes (encodeUtf8
        ("NATS/1.0\r\n".data ++ ("x-test".data ++ ':' :: " one, two".data)
          ++ crlf))
      = some (Except.ok [("x-test".data, ["one".data, " two".data])]) := by
  have h := c2_amended "x-test".data " one, two".data
    (by decide) (by decide) (by decide)
  exact h.trans (by decide)

/-- C3, counterexample: the headers `{"a" ↦ {"x,y"}}` serialize to a
line `a:x,y`, which re-parses as the value set `{"x", "y"}` — not equal
to the original set `{"x,y"}`. -/
theorem c3_counterexample :
    tryFromBytes (toBytes [("a".data, ["x,y".data])])
      = some (Except.ok [("a".data, ["x".data, "y".data])])
    ∧ "x,y".data ∉ ["x".data, "y".data] := by
  constructor
  · decide
  · decide

/-- C3, amended: for every headers map whose names are trimmed,
colon-free and newline-free, with nonempty duplicate-free sets of
trimmed, comma-free, newline-free values, serializing with `to_bytes`
and re-parsing with `try_from` succeeds and returns exactly the same
map (hence the same value set per name). -/
theorem c3_amended (m : HeadersMap) (hwf : WfHeaders m) :
    tryFromBytes (toBytes m) = some (Except.ok m) :=
  tryFromBytes_toBytes m hwf

/-- Witness for C3: a two-entry map round-trips byte-exactly. -/
theorem c3_amended_witness :
    tryFromBytes (toBytes
        [("a".data, ["b".data, "c d".data]), ("x-test".data, ["v".data])])
      = some (Except.ok
        [("a".data, ["b".data, "c d".data]), ("x-test".data, ["v".data])]) :=
  c3_amended [("a".data, ["b".data, "c d".data]), ("x-test".data, ["v".data])]
    (by
      constructor
      · decide
      · decide)

/-- C4: releasing the `N` clones of a pull subscription (clones are
interchangeable, so any release order is the same sequence of
decrements) runs `Inner::drop` exactly once, at the `N`-th release and
never before; an `Owned` handle issues exactly one delete-consumer
request then, a `Borrowed` handle none. -/
theorem c4_teardown (N : Nat) (ow : ConsumerOwnership) (h : 1 ≤ N) :
    (releaseN ow N (initialState N)).dropRuns = 1 ∧
    (releaseN ow N (initialState N)).deleteCalls
      = (if ow = ConsumerOwnership.yes then 1 else 0) ∧
    ∀ k, k < N →
      (releaseN ow k (initialState N)).dropRuns = 0 ∧
      (releaseN ow k (initialState N)).deleteCalls = 0 := by
  have hsplit := releaseN_add ow (N - 1) 1 (initialState N)
  rw [show N - 1 + 1 = N from by omega] at hsplit
  have hpart := releaseN_before_last ow (N - 1) N 0 0 (by omega)
  have hfin : releaseN ow N (initialState N)
      = ⟨0, 1, if ow = ConsumerOwnership.yes then 1 else 0⟩ := by
    rw [hsplit]
    rw [show initialState N = (⟨N, 0, 0⟩ : HandleState) from rfl]
    rw [hpart]
    rw [show N - (N - 1) = 1 from by omega]
    rfl
  refine ⟨by rw [hfin], by rw [hfin], ?_⟩
  intro k hk
  have := releaseN_before_last ow k N 0 0 hk
  rw [show initialState N = (⟨N, 0, 0⟩ : HandleState) from rfl, this]
  exact ⟨rfl, rfl⟩

/-- Witness for C4 at `N = 3`, ownership `Owned`. -/
theorem c4_teardown_witness :
    (releaseN ConsumerOwnership.yes 3 (initialState 3)).dropRuns = 1 ∧
    (releaseN ConsumerOwnership.yes 3 (initialState 3)).deleteCalls = 1 ∧
    (releaseN ConsumerOwnership.yes 2 (initialState 3)).dropRuns = 0 := by
  have h := c4_teardown 3 ConsumerOwnership.yes (by decide)
  refine ⟨h.1, ?_, (h.2.2 2 (by decide)).1⟩
  have h2 := h.2.1
  simpa using h2

/-- C5: the `fetch` in the source performs no validation at all — for
every batch argument, including `0` and `-1`, it returns
`Ok(Fetch {})` instead of rejecting the call (the claim and the spec
require a caller error for non-positive batches; the code is a
non-compiling stub). -/
theorem c5_fetch_no_validation (batch : Int) :
    fetch batch = Except.ok Fetch.mk := rfl

/-- C6: for every ownership flag and every outcome of the
delete-consumer request, teardown hands back success — the outcome is
discarded by `.ok()` (same teardown effect whatever the outcome) and no
error is ever surfaced. -/
theorem c6_teardown_absorbs (ow : ConsumerOwnership)
    (outcome : DeleteOutcome) :
    (innerDrop ow outcome).1 = Except.ok () ∧
    ∀ outcome2, innerDrop ow outcome = innerDrop ow outcome2 := by
  constructor
  · cases ow <;> cases outcome <;> rfl
  · intro o2
    cases ow <;> cases outcome <;> cases o2 <;> rfl

/-- C7, counterexample: the input line `": value"` parses successfully
and produces an entry whose name is the empty string — the parser does
not reject empty names. -/
theorem c7_counterexample :
    tryFromBytes (encodeUtf8 "NATS/1.0\r\n: value\r\n".data)
      = some (Except.ok [([], ["value".data])])
    ∧ [] ∈ keysOf [([], ["value".data])] := by
  constructor
  · decide
  · decide

/-- C7, amended: every key of a successfully parsed headers value
contains no colon character; keys may however be empty (`": value"`
creates an empty-named entry). -/
theorem c7_amended (buf : List Nat) (m : HeadersMap)
    (h : tryFromBytes buf = some (Except.ok m)) :
    ∀ p ∈ m, ':' ∉ p.1 :=
  tryFromBytes_keys buf m h

/-- Witness for C7 on a concrete successful parse. -/
theorem c7_amended_witness :
    ':' ∉ (("a".data, ["b".data]) : Str × ValueSet).1 :=
  c7_amended (encodeUtf8 "NATS/1.0\r\na: b\r\n".data)
    [("a".data, ["b".data])] (by decide) ("a".data, ["b".data]) (by decide)

/-- C8: every failure of header parsing is an `io::Error` of kind
`InvalidInput`; the four causes (invalid UTF-8, empty input, bad
version line, missing colon) are told apart only by the message
string. -/
theorem c8_error_kind (buf : List Nat) (e : IoError)
    (h : tryFromBytes buf = some (Except.error e)) :
    e.kind = EKind.invalidInput ∧
      (e.message = msgInvalidUtf8 ∨ e.message = msgMissingBlock ∨
        e.message = msgBadVersion ∨ e.message = msgMalformed) :=
  tryFromBytes_error buf e h

/-- Witness for C8 on the invalid byte `0xFF`. -/
theorem c8_error_kind_witness :
    (parseErr msgInvalidUtf8).kind = EKind.invalidInput ∧
      ((parseErr msgInvalidUtf8).message = msgInvalidUtf8 ∨
        (parseErr msgInvalidUtf8).message = msgMissingBlock ∨
        (parseErr msgInvalidUtf8).message = msgBadVersion ∨
        (parseErr msgInvalidUtf8).message = msgMalformed) :=
  c8_error_kind [255] (parseErr msgInvalidUtf8) (by decide)

/-- C9: header parsing is total — for every byte input `try_from`
returns a value (`Ok` or `Err`) and never panics; in particular the
byte slice `&v[1..]` taken of each consumed continuation line is in
bounds because such a line starts with a one-byte space or tab. -/
theorem c9_total (buf : List Nat) : (tryFromBytes buf).isSome = true :=
  tryFromBytes_isSome buf

/-- C10, counterexample: the all-whitespace line `" "` directly after
the version line begins with a space and contains no colon, yet the
parse succeeds with an empty map instead of failing as malformed — the
line trims to nothing and is skipped like a blank line. -/
theorem c10_counterexample :
    tryFromBytes (encodeUtf8 "NATS/1.0\r\n \r\n".data)
      = some (Except.ok [])
    ∧ startsCont " ".data = true ∧ ':' ∉ " ".data := by
  refine ⟨?_, ?_, ?_⟩
  · decide
  · decide
  · decide

/-- C10, amended: a line beginning with a space or tab immediately
after the version line is not treated as a continuation; after trimming
it is handled as an ordinary line — skipped if it trims to nothing,
rejected as malformed if it has no colon (and does not trim to
nothing), and otherwise it starts a new header entry of its own. -/
theorem c10_amended (l : Str) (hcont : startsCont l = true)
    (hnl : '\n' ∉ l) :
    (trimStr l = [] →
      tryFromBytes (encodeUtf8 ("NATS/1.0\r\n".data ++ l ++ crlf))
        = some (Except.ok [])) ∧
    (trimStr l ≠ [] → ':' ∉ l →
      tryFromBytes (encodeUtf8 ("NATS/1.0\r\n".data ++ l ++ crlf))
        = some (Except.error (parseErr msgMalformed))) ∧
    (∀ k v, l = k ++ ':' :: v → ':' ∉ k →
      tryFromBytes (encodeUtf8 ("NATS/1.0\r\n".data ++ l ++ crlf))
        = some (Except.ok
            [(trimStr k, insertPieces [] (splitComma (trimStr v)))])) := by
  refine ⟨?_, ?_, ?_⟩
  · intro hblank
    rw [tryFromBytes_encodeUtf8, tryFromChars_one_line hnl]
    exact processLines_single_blank hblank []
  · intro hne hc
    rw [tryFromBytes_encodeUtf8, tryFromChars_one_line hnl]
    exact processLines_single_malformed hc hne []
  · intro k v heq hk
    subst heq
    rw [tryFromBytes_encodeUtf8, tryFromChars_one_line hnl]
    exact processLines_single_header v hk

/-- Witness for C10 on the line `" a: b"`. -/
theorem c10_amended_witness :
    tryFromBytes (encodeUtf8 ("NATS/1.0\r\n".data ++ " a: b".data ++ crlf))
      = some (Except.ok [("a".data, ["b".data])]) := by
  have h := (c10_amended " a: b".data (by decide) (by decide)).2.2
    " a".data " b".data (by decide) (by decide)
  exact h.trans (by decide)

end NatsClaims
